import Mathlib

/-!
Verification of the mugqic pipeline execution engine against its design
specification.  The repository source under scrutiny is the RNA-Seq
pipeline (`pipelines/rnaseq/rnaseq.py`), whose step bodies construct
`Job` values, merge them with `concat_jobs` and resolve alternative
inputs with `select_input_files`.  The engine itself (`core/job.py`,
`core/pipeline.py`) is not part of the source tree given here, so the
engine operations are modelled from the specification, while the step
bodies (`star`, `wiggle`, `rnaseqc`) are embedded from the source.
-/

namespace Mugqic

/-- File paths are plain strings, as in the Python source. -/
abbrev Path := String

/-- A filesystem snapshot: an association list from a path to its
modification time.  A path absent from the list does not exist on disk.
This is the injectable filesystem probe of the specification
(`exists(path) -> bool`, `mtime(path) -> timestamp`). -/
abbrev FS := List (Path × Nat)

/-- Modification time of a path in a filesystem snapshot, `none` when the
path does not exist. -/
def mtimeOf (fs : FS) (p : Path) : Option Nat :=
  fs.lookup p

/-- A path exists on disk iff it has a modification time. -/
def pathExists (fs : FS) (p : Path) : Bool :=
  (mtimeOf fs p).isSome

/-- A job: the atomic unit of work.  Mirrors the Python `Job` class as used
by the step bodies: declared input files, declared output files, a shell
command, and removable files (eligible for cleanup, not part of
dependency computation). -/
structure Job where
  name : String := ""
  input_files : List Path := []
  output_files : List Path := []
  command : String := ""
  removable_files : List Path := []
  deriving Repr, DecidableEq

/-- Job `a` produces for job `b`: some declared output of `a` is a declared
input of `b`.  This is the edge relation of the dependency graph. -/
def producesFor (a b : Job) : Bool :=
  a.output_files.any (fun o => b.input_files.contains o)

/-- One step of job merging: extend the accumulated merged job by one
sub-job.  Modelled from the spec: the merged `inputs` gain those inputs of
the sub-job not already produced as an output by an earlier sub-job
(duplicates collapsed); the merged `outputs` gain the sub-job's outputs
(union); commands are chained sequentially. -/
def concatStep (acc j : Job) : Job :=
  { name := acc.name
    input_files := acc.input_files ++
      j.input_files.filter
        (fun p => !acc.output_files.contains p && !acc.input_files.contains p)
    output_files := acc.output_files ++
      j.output_files.filter (fun p => !acc.output_files.contains p)
    command := if acc.command = "" then j.command else acc.command ++ " && " ++ j.command
    removable_files := acc.removable_files ++
      j.removable_files.filter (fun p => !acc.removable_files.contains p) }

/-- Modelled from the spec: `concat_jobs` (the JobMerger of `core/job.py`,
absent from the given source tree) composes an ordered sequence of
sub-jobs into one atomic job, folding `concatStep` from an empty job. -/
def concat_jobs (jobs : List Job) (name : String := "") : Job :=
  jobs.foldl concatStep { name := name }

/-- A path is *available* when it exists on the filesystem now or is
declared as an output of a job already constructed earlier in the run. -/
def available (fs : FS) (constructed : List Path) (p : Path) : Bool :=
  pathExists fs p || constructed.contains p

/-- A candidate tier is satisfiable when every one of its paths is
available. -/
def tierSatisfiable (fs : FS) (constructed : List Path) (tier : List Path) : Bool :=
  tier.all (available fs constructed)

/-- The unavailable paths of a candidate tier. -/
def missingPaths (fs : FS) (constructed : List Path) (tier : List Path) : List Path :=
  tier.filter (fun p => !available fs constructed p)

/-- The error raised when no candidate tier is satisfiable: it records
every tier attempted together with that tier's missing paths. -/
structure CandidateResolutionError where
  attempts : List (List Path × List Path)
  deriving Repr, DecidableEq

/-- Modelled from the spec: `select_input_files` (the CandidateInputResolver
of `core/pipeline.py`, absent from the given source tree) returns the
first tier, scanning left to right, whose every path is available;
otherwise it fails with a `CandidateResolutionError` naming every tier
attempted and the missing paths per tier. -/
def select_input_files (fs : FS) (constructed : List Path) :
    List (List Path) → Except CandidateResolutionError (List Path)
  | [] => .error ⟨[]⟩
  | tier :: rest =>
    if tierSatisfiable fs constructed tier then
      .ok tier
    else
      match select_input_files fs constructed rest with
      | .ok r => .ok r
      | .error e => .error ⟨(tier, missingPaths fs constructed tier) :: e.attempts⟩

/-! ### Candidate input resolution (claims C4 and C5) -/

theorem select_first_aux (fs : FS) (co : List Path) :
    ∀ (tiers : List (List Path)) (i : Nat) (t : List Path),
      tiers[i]? = some t →
      tierSatisfiable fs co t = true →
      (∀ T ∈ tiers.take i, tierSatisfiable fs co T = false) →
      select_input_files fs co tiers = .ok t := by
  intro tiers
  induction tiers with
  | nil => intro i t ht; simp at ht
  | cons tier rest ih =>
    intro i t ht hsat hbefore
    cases i with
    | zero =>
      simp at ht
      subst ht
      simp [select_input_files, hsat]
    | succ i =>
      have hhead : tierSatisfiable fs co tier = false := by
        apply hbefore
        simp [List.take_succ_cons]
      have hrec := ih i t (by simpa using ht) hsat
        (by intro T hT; exact hbefore T (by simp [List.take_succ_cons, hT]))
      simp [select_input_files, hhead, hrec]

theorem select_error_aux (fs : FS) (co : List Path) :
    ∀ (tiers : List (List Path)),
      (∀ t ∈ tiers, tierSatisfiable fs co t = false) →
      select_input_files fs co tiers =
        .error ⟨tiers.map (fun t => (t, missingPaths fs co t))⟩ := by
  intro tiers
  induction tiers with
  | nil => intro _; rfl
  | cons tier rest ih =>
    intro h
    have hhead : tierSatisfiable fs co tier = false := h tier (by simp)
    have hrec := ih (fun t ht => h t (by simp [ht]))
    simp [select_input_files, hhead, hrec]

/-- C4: the candidate input resolver returns exactly the first tier, scanning
left to right, for which every path is available (available = present on the
filesystem or declared as an output of a job already constructed in the same
run), and repeated calls under an identical filesystem state return the same
tier. -/
theorem c4_select_input_files_first_tier (fs : FS) (co : List Path)
    (tiers : List (List Path)) (i : Nat) (t : List Path)
    (ht : tiers[i]? = some t)
    (hsat : tierSatisfiable fs co t = true)
    (hbefore : ∀ T ∈ tiers.take i, tierSatisfiable fs co T = false) :
    select_input_files fs co tiers = .ok t ∧
      select_input_files fs co tiers = select_input_files fs co tiers :=
  ⟨select_first_aux fs co tiers i t ht hsat hbefore, rfl⟩

/-- Witness for C4, the spec's own example: tier 0 `["trim.fastq"]` absent,
tier 1 `["raw.fastq"]` present on disk; the resolver returns tier 1. -/
theorem c4_select_input_files_first_tier_witness :
    ([["trim.fastq"], ["raw.fastq"]] : List (List Path))[1]? = some ["raw.fastq"] ∧
      tierSatisfiable [("raw.fastq", 5)] [] ["raw.fastq"] = true ∧
      (∀ T ∈ ([["trim.fastq"], ["raw.fastq"]] : List (List Path)).take 1,
        tierSatisfiable [("raw.fastq", 5)] [] T = false) ∧
      select_input_files [("raw.fastq", 5)] [] [["trim.fastq"], ["raw.fastq"]] =
        .ok ["raw.fastq"] :=
  ⟨by decide, by decide, by decide,
    (c4_select_input_files_first_tier [("raw.fastq", 5)] [] [["trim.fastq"], ["raw.fastq"]]
      1 ["raw.fastq"] (by decide) (by decide) (by decide)).1⟩

/-- C5: when no candidate tier has all of its paths available, the resolver
fails with a `CandidateResolutionError` naming every tier attempted and the
missing paths per tier (the step's resolution yields this error rather than a
tier). -/
theorem c5_select_input_files_error (fs : FS) (co : List Path)
    (tiers : List (List Path))
    (h : ∀ t ∈ tiers, tierSatisfiable fs co t = false) :
    select_input_files fs co tiers =
      .error ⟨tiers.map (fun t => (t, missingPaths fs co t))⟩ :=
  select_error_aux fs co tiers h

/-- Witness for C5: with an empty filesystem both tiers are unsatisfiable and
the error lists both tiers with their missing paths. -/
theorem c5_select_input_files_error_witness :
    (∀ t ∈ ([["trim.fastq"], ["raw.fastq"]] : List (List Path)),
      tierSatisfiable [] [] t = false) ∧
      select_input_files [] [] [["trim.fastq"], ["raw.fastq"]] =
        .error ⟨[(["trim.fastq"], ["trim.fastq"]), (["raw.fastq"], ["raw.fastq"])]⟩ :=
  ⟨by decide, c5_select_input_files_error [] [] [["trim.fastq"], ["raw.fastq"]] (by decide)⟩

/-! ### Job merging (claims C6, C7, C8) -/

theorem mem_concatStep_outputs (acc j : Job) (p : Path) :
    p ∈ (concatStep acc j).output_files ↔
      p ∈ acc.output_files ∨ p ∈ j.output_files := by
  simp [concatStep, List.mem_filter]
  tauto

theorem mem_concatStep_inputs (acc j : Job) (p : Path) :
    p ∈ (concatStep acc j).input_files ↔
      p ∈ acc.input_files ∨
        (p ∈ j.input_files ∧ p ∉ acc.output_files ∧ p ∉ acc.input_files) := by
  simp [concatStep, List.mem_filter]

theorem mem_foldl_concatStep_outputs :
    ∀ (js : List Job) (acc : Job) (p : Path),
      p ∈ (js.foldl concatStep acc).output_files ↔
        p ∈ acc.output_files ∨ ∃ S ∈ js, p ∈ S.output_files := by
  intro js
  induction js with
  | nil => intro acc p; simp
  | cons j rest ih =>
    intro acc p
    rw [List.foldl_cons, ih, mem_concatStep_outputs]
    simp
    tauto

theorem exists_split_cons (A B : Job → Prop) (j : Job) (rest : List Job) :
    (∃ pre S post, j :: rest = pre ++ S :: post ∧ A S ∧ ∀ T ∈ pre, B T) ↔
      (A j ∨ (B j ∧ ∃ pre S post, rest = pre ++ S :: post ∧ A S ∧ ∀ T ∈ pre, B T)) := by
  constructor
  · rintro ⟨pre, S, post, hsplit, hA, hB⟩
    cases pre with
    | nil =>
      simp at hsplit
      left
      rw [hsplit.1]
      exact hA
    | cons T pre =>
      simp at hsplit
      right
      refine ⟨?_, pre, S, post, hsplit.2, hA, ?_⟩
      · rw [hsplit.1]; exact hB T (by simp)
      · intro U hU; exact hB U (by simp [hU])
  · rintro (hA | ⟨hBj, pre, S, post, hsplit, hA, hB⟩)
    · exact ⟨[], j, rest, rfl, hA, by simp⟩
    · refine ⟨j :: pre, S, post, by rw [hsplit]; rfl, hA, ?_⟩
      intro T hT
      rcases List.mem_cons.mp hT with h | h
      · rw [h]; exact hBj
      · exact hB T h

theorem mem_foldl_concatStep_inputs :
    ∀ (js : List Job) (acc : Job) (p : Path),
      p ∈ (js.foldl concatStep acc).input_files ↔
        p ∈ acc.input_files ∨
          (p ∉ acc.output_files ∧
            ∃ pre S post, js = pre ++ S :: post ∧ p ∈ S.input_files ∧
              ∀ T ∈ pre, p ∉ T.output_files) := by
  intro js
  induction js with
  | nil =>
    intro acc p
    simp only [List.foldl_nil]
    constructor
    · intro h; exact Or.inl h
    · rintro (h | ⟨-, pre, S, post, hsplit, -, -⟩)
      · exact h
      · exact absurd hsplit (by simp)
  | cons j rest ih =>
    intro acc p
    rw [List.foldl_cons, ih, mem_concatStep_inputs, mem_concatStep_outputs,
      exists_split_cons (fun S => p ∈ S.input_files) (fun T => p ∉ T.output_files)]
    constructor
    · rintro ((h | ⟨hji, hao, hai⟩) | ⟨hno, hsplit⟩)
      · exact Or.inl h
      · exact Or.inr ⟨hao, Or.inl hji⟩
      · push_neg at hno
        exact Or.inr ⟨hno.1, Or.inr ⟨hno.2, hsplit⟩⟩
    · rintro (h | ⟨hao, (hji | ⟨hjo, hsplit⟩)⟩)
      · exact Or.inl (Or.inl h)
      · by_cases hai : p ∈ acc.input_files
        · exact Or.inl (Or.inl hai)
        · exact Or.inl (Or.inr ⟨hji, hao, hai⟩)
      · refine Or.inr ⟨?_, hsplit⟩
        push_neg
        exact ⟨hao, hjo⟩

/-- C7: a path is an input of the merged job iff it is an input of some
sub-job `S` and no sub-job strictly before `S` in the sequence declares it
as an output — i.e. the merged inputs are `S1`'s inputs plus, for each later
sub-job, those of its inputs not produced by an earlier sub-job; internal
intermediates never surface as inputs of the merged job. -/
theorem c7_concat_jobs_inputs (js : List Job) (nm : String) (p : Path) :
    p ∈ (concat_jobs js nm).input_files ↔
      ∃ pre S post, js = pre ++ S :: post ∧ p ∈ S.input_files ∧
        ∀ T ∈ pre, p ∉ T.output_files := by
  rw [concat_jobs, mem_foldl_concatStep_inputs]
  simp

theorem concatStep_empty_inputs (nm : String) (j : Job) :
    (concatStep { name := nm } j).input_files = j.input_files := by
  simp [concatStep]

theorem concatStep_empty_outputs (nm : String) (j : Job) :
    (concatStep { name := nm } j).output_files = j.output_files := by
  simp [concatStep]

theorem concatStep_congr (x y : Job) (j : Job)
    (hin : x.input_files = y.input_files)
    (hout : x.output_files = y.output_files) :
    (concatStep x j).input_files = (concatStep y j).input_files ∧
      (concatStep x j).output_files = (concatStep y j).output_files := by
  constructor <;> simp [concatStep, hin, hout]

/-- C8: job merging is associative in its net interface: merging `[A, B]`
and then merging the result with `C` yields the same inputs and the same
outputs as merging `[A, B, C]` directly, for any jobs `A`, `B`, `C`. -/
theorem c8_concat_jobs_associative (a b c : Job) (n1 n2 n3 : String) :
    (concat_jobs [a, b, c] n1).input_files =
        (concat_jobs [concat_jobs [a, b] n2, c] n3).input_files ∧
      (concat_jobs [a, b, c] n1).output_files =
        (concat_jobs [concat_jobs [a, b] n2, c] n3).output_files := by
  have h2 : (concat_jobs [a, b] n2) = concatStep (concatStep { name := n2 } a) b := rfl
  have h1 : (concat_jobs [a, b, c] n1) =
      concatStep (concatStep (concatStep { name := n1 } a) b) c := rfl
  have h3 : (concat_jobs [concat_jobs [a, b] n2, c] n3) =
      concatStep (concatStep { name := n3 } (concat_jobs [a, b] n2)) c := rfl
  rw [h1, h3]
  apply concatStep_congr
  · have := concatStep_congr (concatStep { name := n1 } a) (concatStep { name := n2 } a) b
      (by rw [concatStep_empty_inputs, concatStep_empty_inputs])
      (by rw [concatStep_empty_outputs, concatStep_empty_outputs])
    rw [this.1, concatStep_empty_inputs, h2]
  · have := concatStep_congr (concatStep { name := n1 } a) (concatStep { name := n2 } a) b
      (by rw [concatStep_empty_inputs, concatStep_empty_inputs])
      (by rw [concatStep_empty_outputs, concatStep_empty_outputs])
    rw [this.2, concatStep_empty_outputs, h2]

/-! ### The `wiggle` step (source of claim C6)

`rnaseq.py`, `RnaSeq.wiggle`, strand-specific branch: two `samtools view`
sub-jobs write temporary BAM files, a `picard merge_sam_files` sub-job
merges them, and a final sub-job `rm`s the temporaries.  The step then
*manually* removes the temporary paths from the merged job's
`output_files` ("Remove temporary-then-deleted files from job output
files, otherwise job is never up to date"). -/

/-- Modelled from the spec: the excluded domain layer's `samtools.view`
constructor returns a Job consuming the given BAM and producing the target
(interface per §6, `newJob(name, inputs, outputs, action, removable)`). -/
def samtools_view (input target : Path) (options : String) : Job :=
  { input_files := [input]
    output_files := [target]
    command := "samtools view " ++ options ++ " " ++ input ++ " > " ++ target }

/-- Modelled from the spec: the excluded domain layer's
`picard.merge_sam_files` constructor returns a Job consuming the given BAMs
and producing the merged BAM. -/
def picard_merge_sam_files (inputs : List Path) (output : Path) : Job :=
  { input_files := inputs
    output_files := [output]
    command := "picard MergeSamFiles OUTPUT=" ++ output }

/-- The bare cleanup sub-job of `wiggle` (rnaseq.py line 332):
`Job(command="rm " + input_bam_f1 + " " + input_bam_f2)` — no declared
inputs or outputs, only a shell command. -/
def rmJob (f1 f2 : Path) : Job :=
  { command := "rm " ++ f1 ++ " " ++ f2 }

/-- Split a character list at spaces (helper for reading off the targets of
an `rm` command). -/
def splitSpacesAux : List Char → List Char → List String
  | [], acc => [⟨acc.reverse⟩]
  | c :: rest, acc =>
    if c = ' ' then ⟨acc.reverse⟩ :: splitSpacesAux rest []
    else splitSpacesAux rest (c :: acc)

/-- The paths deleted by a job command of the form `rm f1 f2 ...`. -/
def rmTargets (cmd : String) : List Path :=
  match cmd.data with
  | 'r' :: 'm' :: ' ' :: rest => splitSpacesAux rest []
  | _ => []

/-- `alignment/<sample>/<sample>.sorted.mdup.` — the BAM prefix used by
`wiggle` (rnaseq.py line 315). -/
def wigglePrefix (sample : String) : String :=
  "alignment/" ++ sample ++ "/" ++ sample ++ ".sorted.mdup."

/-- The ordered sub-jobs of `wiggle`'s forward-strand merged job
(rnaseq.py lines 328-333). -/
def wiggle_forward_subjobs (sample : String) : List Job :=
  [ samtools_view (wigglePrefix sample ++ "bam")
      (wigglePrefix sample ++ "tmp1.forward.bam") "-bh -F 256 -f 81",
    samtools_view (wigglePrefix sample ++ "bam")
      (wigglePrefix sample ++ "tmp2.forward.bam") "-bh -F 256 -f 161",
    picard_merge_sam_files
      [wigglePrefix sample ++ "tmp1.forward.bam",
       wigglePrefix sample ++ "tmp2.forward.bam"]
      (wigglePrefix sample ++ "forward.bam"),
    rmJob (wigglePrefix sample ++ "tmp1.forward.bam")
      (wigglePrefix sample ++ "tmp2.forward.bam") ]

/-- The merged forward-strand job as produced by `concat_jobs`
(rnaseq.py lines 328-333), before the step's manual output fixup. -/
def bam_f_job (sample : String) : Job :=
  concat_jobs (wiggle_forward_subjobs sample)
    ("wiggle." ++ sample ++ ".forward_strandspec")

/-- The forward-strand job after the step's manual removal of the two
temporary paths from `output_files` (rnaseq.py lines 335-336; Python
`list.remove` deletes the first occurrence). -/
def wiggle_forward_job (sample : String) : Job :=
  let m := bam_f_job sample
  let out1 := m.output_files.erase (wigglePrefix sample ++ "tmp1.forward.bam")
  let out2 := out1.erase (wigglePrefix sample ++ "tmp2.forward.bam")
  { m with output_files := out2 }

/-- C6 counterexample: in `wiggle`'s forward-strand merged job for sample
`"S"`, the temporary path `alignment/S/S.sorted.mdup.tmp1.forward.bam` is an
output of the first sub-job, is deleted by the final `rm` sub-job, and yet
*does* appear in the merged job's outputs — so the merger does not exclude
transient paths; the step removes them manually afterwards. -/
theorem c6_transient_counterexample :
    ((wiggle_forward_subjobs "S")[0]?.map Job.output_files =
        some ["alignment/S/S.sorted.mdup.tmp1.forward.bam"]) ∧
      ((wiggle_forward_subjobs "S")[3]?.map (fun j => rmTargets j.command) =
        some ["alignment/S/S.sorted.mdup.tmp1.forward.bam",
              "alignment/S/S.sorted.mdup.tmp2.forward.bam"]) ∧
      ("alignment/S/S.sorted.mdup.tmp1.forward.bam" : Path) ∈
        (bam_f_job "S").output_files := by
  refine ⟨rfl, rfl, ?_⟩
  decide

/-- C6 amended: the merged job's outputs are the plain union of the
sub-jobs' outputs — the merger excludes nothing, transient or not; it is the
`wiggle` step itself that removes the temporary-then-deleted paths from the
merged job's output list, after which they are absent (the job's only
remaining output being the merged BAM), so they induce no downstream
dependency edge. -/
theorem c6_concat_jobs_outputs_union :
    (∀ (js : List Job) (nm : String) (p : Path),
        p ∈ (concat_jobs js nm).output_files ↔ ∃ S ∈ js, p ∈ S.output_files) ∧
      ("alignment/S/S.sorted.mdup.tmp1.forward.bam" : Path) ∉
          (wiggle_forward_job "S").output_files ∧
      ("alignment/S/S.sorted.mdup.tmp2.forward.bam" : Path) ∉
          (wiggle_forward_job "S").output_files ∧
      (wiggle_forward_job "S").output_files =
        ["alignment/S/S.sorted.mdup.forward.bam"] := by
  refine ⟨?_, by decide, by decide, by decide⟩
  intro js nm p
  rw [concat_jobs, mem_foldl_concatStep_outputs]
  simp

/-! ### Job status and the merged action (claim C9) -/

/-- The per-job status of the specification's state machine. -/
inductive Status
  | PENDING
  | UP_TO_DATE
  | STALE
  | RUNNING
  | SUCCEEDED
  | FAILED
  | BLOCKED
  deriving Repr, DecidableEq

/-- Modelled from the spec: the merged job's action (`core/job.py` command
chaining, absent from the given source tree) runs each sub-job's action in
order with short-circuit on failure.  The oracle `act` gives each sub-job's
action outcome; the result is the merged status together with the list of
sub-jobs whose action was actually executed. -/
def runSeq (act : Job → Bool) : List Job → Status × List Job
  | [] => (Status.SUCCEEDED, [])
  | j :: rest =>
    if act j then
      let r := runSeq act rest
      (r.1, j :: r.2)
    else
      (Status.FAILED, [j])

/-- C9: if a sub-action fails, the merged action executes exactly the
preceding sub-jobs and the failing one — none of the later sub-jobs run —
and the merged job's status is FAILED. -/
theorem c9_runSeq_short_circuit (act : Job → Bool) (pre : List Job) (si : Job)
    (post : List Job)
    (hpre : ∀ a ∈ pre, act a = true) (hfail : act si = false) :
    runSeq act (pre ++ si :: post) = (Status.FAILED, pre ++ [si]) := by
  induction pre with
  | nil => simp [runSeq, hfail]
  | cons a rest ih =>
    have ha : act a = true := hpre a (by simp)
    have ih' := ih (fun x hx => hpre x (by simp [hx]))
    simp [runSeq, ha, ih']

/-- Witness for C9: with the action failing exactly on the job named
`"bad"`, the sequence `[ok1, bad, ok2]` stops after `bad` and is FAILED. -/
theorem c9_runSeq_short_circuit_witness :
    (∀ a ∈ [({ name := "ok1" } : Job)],
        (fun j : Job => !(j.name == "bad")) a = true) ∧
      (fun j : Job => !(j.name == "bad")) { name := "bad" } = false ∧
      runSeq (fun j : Job => !(j.name == "bad"))
          ([{ name := "ok1" }] ++ ({ name := "bad" } : Job) :: [{ name := "ok2" }]) =
        (Status.FAILED, [{ name := "ok1" }, { name := "bad" }]) :=
  ⟨by decide, by decide,
    c9_runSeq_short_circuit (fun j : Job => !(j.name == "bad"))
      [{ name := "ok1" }] { name := "bad" } [{ name := "ok2" }]
      (by decide) (by decide)⟩

/-! ### The `star` step's SINGLE_END branch (claim C10) -/

/-- Errors a step can raise: a Python `TypeError`, or the resolver's
`CandidateResolutionError`. -/
inductive PyErr
  | typeError
  | resolution (e : CandidateResolutionError)
  deriving Repr, DecidableEq

/-- Replacement for the fixed regex `\.bam$` used throughout `star`:
replace a trailing `".bam"` by the given replacement. -/
def reSubBam (repl s : String) : String :=
  if s.endsWith ".bam" then s.dropRight 4 ++ repl else s

/-- Python's `re.sub` applied to a positional argument list: it requires
`[pattern, replacement, source]` (optionally count and flags); any other
arity raises a `TypeError`.  All `star` call sites use the pattern
`"\.bam$"`. -/
def re_sub (args : List String) : Except PyErr String :=
  match args with
  | [_pat, repl, s] => .ok (reSubBam repl s)
  | _ => .error .typeError

/-- A readset as consumed by `RnaSeq.star`: its run type and the optional
`fastq1`, `fastq2` and `bam` attributes from the readset file. -/
structure Readset where
  name : String
  run_type : String
  fastq1 : Option String := none
  fastq2 : Option String := none
  bam : Option String := none
  deriving Repr, DecidableEq

/-- The SINGLE_END branch of `RnaSeq.star` building the candidate input
tiers (rnaseq.py lines 124-128): tier 0 is the trimmed fastq, then the
readset's `fastq1` when set, then a tier derived from the readset BAM name —
the latter built by calling `re.sub` with only two arguments
(`re.sub("\.bam$", ".single.fastq.gz")`), exactly as the source does. -/
def starSingleEndCandidates (trim_file_pfx : String) (r : Readset) :
    Except PyErr (List (List Path)) :=
  let base := [[trim_file_pfx ++ "single.fastq.gz"]]
  let withF := match r.fastq1 with
    | some f => base ++ [[f]]
    | none => base
  match r.bam with
  | some _ =>
    match re_sub ["\\.bam$", ".single.fastq.gz"] with
    | .ok x => .ok (withF ++ [[x]])
    | .error e => .error e
  | none => .ok withF

/-- The SINGLE_END flow of `RnaSeq.star`: build the candidate tiers, then
resolve them with `select_input_files` (rnaseq.py lines 124-129). -/
def starSingleEndSelect (fs : FS) (co : List Path) (trim_file_pfx : String)
    (r : Readset) : Except PyErr (List Path) :=
  match starSingleEndCandidates trim_file_pfx r with
  | .error e => .error e
  | .ok tiers =>
    match select_input_files fs co tiers with
    | .ok t => .ok t
    | .error e => .error (.resolution e)

/-- C10: for a SINGLE_END readset whose `bam` attribute is set, the star
step's third candidate tier calls `re.sub` with only two arguments, so the
branch raises a `TypeError` before candidate input resolution is attempted,
regardless of the filesystem state. -/
theorem c10_star_single_end_bam_type_error (r : Readset) (pfx b : String)
    (_hrt : r.run_type = "SINGLE_END") (hbam : r.bam = some b) :
    starSingleEndCandidates pfx r = .error .typeError ∧
      ∀ (fs : FS) (co : List Path),
        starSingleEndSelect fs co pfx r = .error .typeError := by
  have hc : starSingleEndCandidates pfx r = .error .typeError := by
    simp [starSingleEndCandidates, hbam, re_sub]
  exact ⟨hc, fun fs co => by simp [starSingleEndSelect, hc]⟩

/-- Witness for C10: a concrete SINGLE_END readset carrying a BAM raises
the `TypeError` for every filesystem state, here the empty one. -/
theorem c10_star_single_end_bam_type_error_witness :
    ({ name := "rs1", run_type := "SINGLE_END", bam := some "raw/rs1.bam" } :
        Readset).run_type = "SINGLE_END" ∧
      ({ name := "rs1", run_type := "SINGLE_END", bam := some "raw/rs1.bam" } :
        Readset).bam = some "raw/rs1.bam" ∧
      starSingleEndSelect [] [] "trim/s1/rs1.trim."
          { name := "rs1", run_type := "SINGLE_END", bam := some "raw/rs1.bam" } =
        .error .typeError :=
  ⟨rfl, rfl,
    (c10_star_single_end_bam_type_error
        { name := "rs1", run_type := "SINGLE_END", bam := some "raw/rs1.bam" }
        "trim/s1/rs1.trim." "raw/rs1.bam" rfl rfl).2 [] []⟩

/-! ### A single topological pass

Both the StalenessEvaluator and the Scheduler/Executor process the job
list in topological order, computing each job's result from the results of
the jobs already processed.  `scanJobs` is that shared pass. -/

/-- One pass over the job list: each job is paired with a value computed by
`f` from the already-processed prefix. -/
def scanJobs {α : Type} (f : List (Job × α) → Job → α) :
    List (Job × α) → List Job → List (Job × α)
  | done, [] => done
  | done, j :: rest => scanJobs f (done ++ [(j, f done j)]) rest

theorem scanJobs_append {α : Type} (f : List (Job × α) → Job → α) :
    ∀ (xs ys : List Job) (done : List (Job × α)),
      scanJobs f done (xs ++ ys) = scanJobs f (scanJobs f done xs) ys := by
  intro xs
  induction xs with
  | nil => intro ys done; rfl
  | cons x xs ih => intro ys done; simp only [List.cons_append, scanJobs]; exact ih ys _

theorem scanJobs_length {α : Type} (f : List (Job × α) → Job → α) :
    ∀ (rest : List Job) (done : List (Job × α)),
      (scanJobs f done rest).length = done.length + rest.length := by
  intro rest
  induction rest with
  | nil => intro done; simp [scanJobs]
  | cons j rest ih =>
    intro done
    simp only [scanJobs]
    rw [ih]
    simp
    omega

theorem scanJobs_prefix_stable {α : Type} (f : List (Job × α) → Job → α) :
    ∀ (rest : List Job) (done : List (Job × α)) (m : Nat), m < done.length →
      (scanJobs f done rest)[m]? = done[m]? := by
  intro rest
  induction rest with
  | nil => intro done m _; rfl
  | cons j rest ih =>
    intro done m hm
    simp only [scanJobs]
    rw [ih _ m (by simp; omega)]
    exact List.getElem?_append_left hm

theorem scanJobs_map_fst {α : Type} (f : List (Job × α) → Job → α) :
    ∀ (rest : List Job) (done : List (Job × α)),
      (scanJobs f done rest).map Prod.fst = done.map Prod.fst ++ rest := by
  intro rest
  induction rest with
  | nil => intro done; simp [scanJobs]
  | cons j rest ih =>
    intro done
    simp only [scanJobs]
    rw [ih]
    simp

/-- The master recurrence: element `n` of the pass over `js` pairs `js[n]`
with `f` applied to the pass over the length-`n` prefix. -/
theorem scanJobs_getElem {α : Type} (f : List (Job × α) → Job → α)
    (js : List Job) (n : Nat) (j : Job) (hj : js[n]? = some j) :
    (scanJobs f [] js)[n]? = some (j, f (scanJobs f [] (js.take n)) j) := by
  have hn : n < js.length := by
    by_contra h
    rw [List.getElem?_eq_none (by omega)] at hj
    exact Option.noConfusion hj
  have hsplit : js = js.take n ++ j :: js.drop (n + 1) := by
    conv_lhs => rw [← List.take_append_drop n js]
    congr 1
    have : js.drop n = js[n] :: js.drop (n + 1) := List.drop_eq_getElem_cons hn
    rw [this]
    have : js[n] = j := by
      have := List.getElem?_eq_getElem hn
      rw [hj] at this
      exact (Option.some.injEq _ _ ▸ this.symm :)
    rw [this]
  conv_lhs => rw [hsplit]
  rw [scanJobs_append]
  simp only [scanJobs]
  set D := scanJobs f [] (js.take n) with hD
  have hlen : D.length = n := by
    rw [hD, scanJobs_length]
    simp
    omega
  rw [scanJobs_prefix_stable _ _ _ n (by simp [hlen])]
  rw [List.getElem?_append_right (by omega)]
  simp [hlen]

/-- Elements of the pass over a prefix agree with the full pass. -/
theorem scanJobs_take_getElem {α : Type} (f : List (Job × α) → Job → α)
    (js : List Job) (n m : Nat) (hmn : m < n) (j : Job) (hj : js[m]? = some j) :
    (scanJobs f [] (js.take n))[m]? = (scanJobs f [] js)[m]? := by
  have h1 : (js.take n)[m]? = some j := by
    rw [List.getElem?_take]
    simp [hmn, hj]
  rw [scanJobs_getElem f (js.take n) m j h1, scanJobs_getElem f js m j hj]
  rw [List.take_take, Nat.min_eq_left (Nat.le_of_lt hmn)]

/-! ### Dependency edges on list positions (claims C1, C2, C3) -/

/-- Edge on positions of the run's job list: the job at position `m`
produces a file consumed by the job at position `n`. -/
def edgeB (js : List Job) (m n : Nat) : Bool :=
  match js[m]?, js[n]? with
  | some a, some b => producesFor a b
  | _, _ => false

/-- The transitive (direct-or-indirect) producer relation on positions. -/
inductive ReachIdx (js : List Job) : Nat → Nat → Prop
  | single {m n : Nat} : edgeB js m n = true → ReachIdx js m n
  | tail {m k n : Nat} : ReachIdx js m k → edgeB js k n = true → ReachIdx js m n

/-- The job list is topologically sorted: every producer precedes its
consumers. -/
abbrev TopoSorted (js : List Job) : Prop :=
  ∀ m < js.length, ∀ n < js.length, edgeB js m n = true → m < n

theorem edgeB_lt {js : List Job} {m n : Nat} (h : edgeB js m n = true) :
    m < js.length ∧ n < js.length := by
  unfold edgeB at h
  constructor
  · by_contra hm
    rw [List.getElem?_eq_none (by omega)] at h
    simp at h
  · by_contra hn
    rw [List.getElem?_eq_none (l := js) (by omega : js.length ≤ n)] at h
    rcases hm : js[m]? with - | a <;> simp [hm] at h

theorem topo_edge_lt {js : List Job} (htopo : TopoSorted js) {m n : Nat}
    (h : edgeB js m n = true) : m < n :=
  htopo m (edgeB_lt h).1 n (edgeB_lt h).2 h

theorem topo_reach_lt {js : List Job} (htopo : TopoSorted js) {m n : Nat}
    (h : ReachIdx js m n) : m < n := by
  induction h with
  | single he => exact topo_edge_lt htopo he
  | tail _ he ih => exact Nat.lt_trans ih (topo_edge_lt htopo he)

theorem reach_src_lt {js : List Job} {m n : Nat} (h : ReachIdx js m n) :
    m < js.length := by
  induction h with
  | single he => exact (edgeB_lt he).1
  | tail _ _ ih => exact ih

theorem reach_dst_lt {js : List Job} {m n : Nat} (h : ReachIdx js m n) :
    n < js.length := by
  cases h with
  | single he => exact (edgeB_lt he).2
  | tail _ he => exact (edgeB_lt he).2

/-- Decompose a producer path at its last edge. -/
theorem reach_cases {js : List Job} {m n : Nat} (h : ReachIdx js m n) :
    edgeB js m n = true ∨ ∃ k, ReachIdx js m k ∧ edgeB js k n = true := by
  cases h with
  | single he => exact Or.inl he
  | tail hr he => exact Or.inr ⟨_, hr, he⟩

/-! ### The StalenessEvaluator (claims C1, C2) -/

/-- The freshest (latest) modification time among a job's on-disk outputs. -/
def freshestOutput (fs : FS) (a : Job) : Option Nat :=
  (a.output_files.filterMap (mtimeOf fs)).max?

/-- The upstream output timestamps a job inherits, read off the processed
prefix of the pass: for every already-processed producer, that producer's
freshest output timestamp together with the timestamps the producer itself
inherited — hence, transitively, the freshest output timestamp of every
upstream job. -/
def upTimesOf (fs : FS) (done : List (Job × Status × List Nat)) (j : Job) :
    List Nat :=
  (done.filter (fun e => producesFor e.1 j)).flatMap
    (fun e => (freshestOutput fs e.1).toList ++ e.2.2)

/-- Does every declared output of `j` exist on disk with a modification
time not older than every timestamp in `times`?  A job with no declared
outputs is never fresh. -/
def outputsFresh (fs : FS) (times : List Nat) (j : Job) : Bool :=
  !j.output_files.isEmpty &&
    j.output_files.all (fun o =>
      match mtimeOf fs o with
      | some t => times.all (fun tin => tin ≤ t)
      | none => false)

/-- Is some already-processed direct producer of `j` STALE? -/
def producerStale (done : List (Job × Status × List Nat)) (j : Job) : Bool :=
  done.any (fun e => producesFor e.1 j && decide (e.2.1 = Status.STALE))

/-- Modelled from the spec: one step of the StalenessEvaluator
(`core/pipeline.py`, absent from the given source tree; spec §4.4): the job
is UP_TO_DATE iff every output exists with a modification time not older
than every input timestamp — input file mtimes plus the transitive upstream
output timestamps — and no direct producer is STALE; otherwise STALE. -/
def staleStep (fs : FS) (done : List (Job × Status × List Nat)) (j : Job) :
    Status × List Nat :=
  let ups := upTimesOf fs done j
  (if outputsFresh fs (j.input_files.filterMap (mtimeOf fs) ++ ups) j
      && !producerStale done j
    then Status.UP_TO_DATE else Status.STALE, ups)

/-- The StalenessEvaluator: a single pass over the topologically ordered
job list. -/
def evalStaleness (fs : FS) (js : List Job) : List (Job × Status × List Nat) :=
  scanJobs (staleStep fs) [] js

/-- The status the StalenessEvaluator assigns to the job at position `n`. -/
def statusAt (fs : FS) (js : List Job) (n : Nat) : Option Status :=
  ((evalStaleness fs js)[n]?).map (fun e => e.2.1)

/-- Declarative transitive upstream timestamps: `t` is the freshest output
timestamp of some (direct or indirect) producer of the job at position
`n`. -/
def UpTime (fs : FS) (js : List Job) (n t : Nat) : Prop :=
  ∃ m a, js[m]? = some a ∧ ReachIdx js m n ∧ freshestOutput fs a = some t

/-- Declarative per-job freshness, exactly as the claim states it: the job
declares at least one output, every declared output exists on disk, and
each output's modification time is not older than every input file's
modification time nor than any transitive upstream output timestamp. -/
def SelfFresh (fs : FS) (js : List Job) (n : Nat) : Prop :=
  ∃ j, js[n]? = some j ∧ j.output_files ≠ [] ∧
    ∀ o ∈ j.output_files, ∃ t, mtimeOf fs o = some t ∧
      (∀ p ∈ j.input_files, ∀ tp, mtimeOf fs p = some tp → tp ≤ t) ∧
      (∀ tu, UpTime fs js n tu → tu ≤ t)

theorem edgeB_eq {js : List Job} {m n : Nat} {a b : Job}
    (ha : js[m]? = some a) (hb : js[n]? = some b) :
    edgeB js m n = producesFor a b := by
  unfold edgeB
  rw [ha, hb]

theorem evalStaleness_getElem (fs : FS) (js : List Job) (n : Nat) (j : Job)
    (hj : js[n]? = some j) :
    (evalStaleness fs js)[n]? =
      some (j, staleStep fs (evalStaleness fs (js.take n)) j) :=
  scanJobs_getElem (staleStep fs) js n j hj

theorem evalStaleness_take_getElem (fs : FS) (js : List Job) (n m : Nat)
    (hmn : m < n) (j : Job) (hj : js[m]? = some j) :
    (evalStaleness fs (js.take n))[m]? = (evalStaleness fs js)[m]? :=
  scanJobs_take_getElem (staleStep fs) js n m hmn j hj

theorem mem_evalStaleness_take (fs : FS) (js : List Job) (n : Nat)
    (hn : n < js.length) (e : Job × Status × List Nat) :
    e ∈ evalStaleness fs (js.take n) ↔
      ∃ m, m < n ∧ (evalStaleness fs js)[m]? = some e := by
  have hlen : (evalStaleness fs (js.take n)).length = n := by
    unfold evalStaleness
    rw [scanJobs_length]
    simp
    omega
  rw [List.mem_iff_getElem?]
  constructor
  · rintro ⟨m, hm⟩
    have hmn : m < n := by
      by_contra hc
      rw [List.getElem?_eq_none (by omega)] at hm
      exact Option.noConfusion hm
    refine ⟨m, hmn, ?_⟩
    rw [← evalStaleness_take_getElem fs js n m hmn js[m]
      (List.getElem?_eq_getElem (by omega))]
    exact hm
  · rintro ⟨m, hmn, hm⟩
    refine ⟨m, ?_⟩
    rw [evalStaleness_take_getElem fs js n m hmn js[m]
      (List.getElem?_eq_getElem (by omega))]
    exact hm

theorem statusAt_of_getElem {fs : FS} {js : List Job} {m : Nat} {a : Job}
    {sm : Status} {upsm : List Nat}
    (h : (evalStaleness fs js)[m]? = some (a, sm, upsm)) :
    statusAt fs js m = some sm := by
  unfold statusAt
  rw [h]
  rfl

/-- The single topological pass computes, at every position, exactly the
declarative staleness semantics: the collected upstream timestamps are the
freshest output timestamps of the transitive producers, the status is
two-valued, and UP_TO_DATE holds iff the job is fresh by itself and no
(transitive, equivalently direct) producer is STALE. -/
theorem staleness_invariant (fs : FS) (js : List Job) (htopo : TopoSorted js) :
    ∀ n j, js[n]? = some j →
      ∃ s ups, (evalStaleness fs js)[n]? = some (j, s, ups) ∧
        (∀ t, t ∈ ups ↔ UpTime fs js n t) ∧
        (s = Status.UP_TO_DATE ∨ s = Status.STALE) ∧
        (s = Status.UP_TO_DATE ↔
          SelfFresh fs js n ∧
            ∀ m, ReachIdx js m n → statusAt fs js m ≠ some Status.STALE) ∧
        (s = Status.UP_TO_DATE ↔
          SelfFresh fs js n ∧
            ∀ m, edgeB js m n = true → statusAt fs js m ≠ some Status.STALE) := by
  intro n
  induction n using Nat.strong_induction_on with
  | _ n IH =>
    intro j hj
    have hn : n < js.length := by
      by_contra h
      rw [List.getElem?_eq_none (by omega)] at hj
      exact Option.noConfusion hj
    set D := evalStaleness fs (js.take n) with hD
    have hget : (evalStaleness fs js)[n]? = some (j, staleStep fs D j) :=
      evalStaleness_getElem fs js n j hj
    have hmemD : ∀ e, e ∈ D ↔ ∃ m, m < n ∧ (evalStaleness fs js)[m]? = some e :=
      mem_evalStaleness_take fs js n hn
    -- characterize the collected upstream timestamps
    have hups : ∀ t, t ∈ upTimesOf fs D j ↔ UpTime fs js n t := by
      intro t
      unfold upTimesOf
      rw [List.mem_flatMap]
      constructor
      · rintro ⟨e, he, ht⟩
        rw [List.mem_filter] at he
        obtain ⟨heD, hpf⟩ := he
        rw [hmemD] at heD
        obtain ⟨m, hmn, hfull⟩ := heD
        have hjm : js[m]? = some js[m] := List.getElem?_eq_getElem (by omega)
        obtain ⟨sm, upsm, hmel, hupsm, -, -, -⟩ := IH m hmn js[m] hjm
        have he_eq : e = (js[m], sm, upsm) := by
          rw [hfull] at hmel
          exact Option.some.inj hmel
        subst he_eq
        have hedge : edgeB js m n = true := by
          rw [edgeB_eq hjm hj]
          exact hpf
        rcases List.mem_append.mp ht with hl | hr
        · refine ⟨m, js[m], hjm, ReachIdx.single hedge, ?_⟩
          cases hfo : freshestOutput fs js[m] with
          | none => rw [hfo] at hl; simp [Option.toList] at hl
          | some t0 =>
            rw [hfo] at hl
            simp [Option.toList] at hl
            rw [hl]
        · have := (hupsm t).mp hr
          obtain ⟨m', a', hm'a, hreach', hfresh'⟩ := this
          exact ⟨m', a', hm'a, ReachIdx.tail hreach' hedge, hfresh'⟩
      · rintro ⟨m, a, hma, hreach, hfresh⟩
        rcases reach_cases hreach with hedge | ⟨k, hrk, hedgek⟩
        · -- direct producer
          have hmn : m < n := topo_edge_lt htopo hedge
          obtain ⟨sm, upsm, hmel, -, -, -, -⟩ := IH m hmn a hma
          refine ⟨(a, sm, upsm), ?_, ?_⟩
          · rw [List.mem_filter]
            refine ⟨(hmemD _).mpr ⟨m, hmn, hmel⟩, ?_⟩
            show producesFor a j = true
            rw [← edgeB_eq hma hj]
            exact hedge
          · apply List.mem_append.mpr
            left
            show t ∈ (freshestOutput fs a).toList
            rw [hfresh]
            simp [Option.toList]
        · -- producer through an intermediate k
          have hkn : k < n := topo_edge_lt htopo hedgek
          have hjk : js[k]? = some js[k] := List.getElem?_eq_getElem (by omega)
          obtain ⟨sk, upsk, hkel, hupsk, -, -, -⟩ := IH k hkn js[k] hjk
          refine ⟨(js[k], sk, upsk), ?_, ?_⟩
          · rw [List.mem_filter]
            refine ⟨(hmemD _).mpr ⟨k, hkn, hkel⟩, ?_⟩
            show producesFor js[k] j = true
            rw [← edgeB_eq hjk hj]
            exact hedgek
          · apply List.mem_append.mpr
            right
            exact (hupsk t).mpr ⟨m, a, hma, hrk, hfresh⟩
    -- characterize the direct-producer staleness check
    have hps : producerStale D j = true ↔
        ∃ m, edgeB js m n = true ∧ statusAt fs js m = some Status.STALE := by
      unfold producerStale
      rw [List.any_eq_true]
      constructor
      · rintro ⟨e, heD, hcond⟩
        rw [Bool.and_eq_true, decide_eq_true_eq] at hcond
        obtain ⟨hpf, hst⟩ := hcond
        rw [hmemD] at heD
        obtain ⟨m, hmn, hfull⟩ := heD
        have hjm : js[m]? = some js[m] := List.getElem?_eq_getElem (by omega)
        obtain ⟨sm, upsm, hmel, -, -, -, -⟩ := IH m hmn js[m] hjm
        have he_eq : e = (js[m], sm, upsm) := by
          rw [hfull] at hmel
          exact Option.some.inj hmel
        subst he_eq
        refine ⟨m, ?_, ?_⟩
        · rw [edgeB_eq hjm hj]
          exact hpf
        · rw [statusAt_of_getElem hfull, ← hst]
      · rintro ⟨m, hedge, hstale⟩
        have hmn : m < n := topo_edge_lt htopo hedge
        have hjm : js[m]? = some js[m] := List.getElem?_eq_getElem (by omega)
        obtain ⟨sm, upsm, hmel, -, -, -, -⟩ := IH m hmn js[m] hjm
        have hsm : sm = Status.STALE := by
          rw [statusAt_of_getElem hmel] at hstale
          exact Option.some.inj hstale
        refine ⟨(js[m], sm, upsm), (hmemD _).mpr ⟨m, hmn, hmel⟩, ?_⟩
        simp only [Bool.and_eq_true, decide_eq_true_eq]
        refine ⟨?_, hsm⟩
        show producesFor js[m] j = true
        rw [← edgeB_eq hjm hj]
        exact hedge
    -- characterize per-job freshness
    have hof : outputsFresh fs
        (j.input_files.filterMap (mtimeOf fs) ++ upTimesOf fs D j) j = true ↔
        SelfFresh fs js n := by
      unfold outputsFresh SelfFresh
      rw [Bool.and_eq_true, List.all_eq_true]
      constructor
      · rintro ⟨hne, hall⟩
        refine ⟨j, hj, by simpa using hne, ?_⟩
        intro o ho
        have h := hall o ho
        cases hmt : mtimeOf fs o with
        | none => rw [hmt] at h; simp at h
        | some t =>
          rw [hmt] at h
          simp only [List.all_eq_true, List.mem_append, decide_eq_true_eq] at h
          refine ⟨t, rfl, ?_, ?_⟩
          · intro p hp tp htp
            exact h tp (Or.inl (List.mem_filterMap.mpr ⟨p, hp, htp⟩))
          · intro tu hut
            exact h tu (Or.inr ((hups tu).mpr hut))
      · rintro ⟨j', hj', hne, hout⟩
        have hjj : j' = j := by
          rw [hj] at hj'
          exact (Option.some.inj hj').symm
        subst hjj
        refine ⟨by simpa using hne, ?_⟩
        intro o ho
        obtain ⟨t, hmt, hin, hup⟩ := hout o ho
        rw [hmt]
        simp only [List.all_eq_true, List.mem_append, decide_eq_true_eq]
        rintro tin (hl | hr)
        · obtain ⟨p, hp, htp⟩ := List.mem_filterMap.mp hl
          exact hin p hp tin htp
        · exact hup tin ((hups tin).mp hr)
    -- assemble
    have hstep0 : (staleStep fs D j).1 =
        (if outputsFresh fs (j.input_files.filterMap (mtimeOf fs) ++ upTimesOf fs D j) j
            && !producerStale D j
          then Status.UP_TO_DATE else Status.STALE) := rfl
    have hstep1 : (staleStep fs D j).2 = upTimesOf fs D j := rfl
    refine ⟨(staleStep fs D j).1, (staleStep fs D j).2, by rw [hget], ?_, ?_, ?_, ?_⟩
    · rw [hstep1]
      exact hups
    · rw [hstep0]
      split <;> simp
    · -- UP_TO_DATE iff fresh and no transitive producer STALE
      rw [hstep0]
      have hcond : (if outputsFresh fs
            (j.input_files.filterMap (mtimeOf fs) ++ upTimesOf fs D j) j
            && !producerStale D j
          then Status.UP_TO_DATE else Status.STALE) = Status.UP_TO_DATE ↔
          (outputsFresh fs
              (j.input_files.filterMap (mtimeOf fs) ++ upTimesOf fs D j) j = true ∧
            producerStale D j = false) := by
        split
        · rename_i hcc
          rw [Bool.and_eq_true, Bool.not_eq_true'] at hcc
          simp [hcc]
        · rename_i hcc
          rw [Bool.and_eq_true, Bool.not_eq_true'] at hcc
          constructor
          · intro h; exact absurd h (by simp)
          · intro h; exact absurd h hcc
      rw [hcond, hof]
      constructor
      · rintro ⟨hsf, hnps⟩
        refine ⟨hsf, ?_⟩
        intro m hreach hstale
        rcases reach_cases hreach with hedge | ⟨k, hrk, hedgek⟩
        · have : producerStale D j = true := (hps).mpr ⟨m, hedge, hstale⟩
          rw [hnps] at this
          exact Bool.noConfusion this
        · have hkn : k < n := topo_edge_lt htopo hedgek
          have hjk : js[k]? = some js[k] := List.getElem?_eq_getElem (by omega)
          obtain ⟨sk, upsk, hkel, -, htv, hiff, -⟩ := IH k hkn js[k] hjk
          have hsk : statusAt fs js k = some sk := statusAt_of_getElem hkel
          rcases htv with hU | hS
          · have := ((hiff).mp hU).2 m hrk
            rw [hU] at hsk
            exact this hstale
          · have : producerStale D j = true :=
              (hps).mpr ⟨k, hedgek, by rw [hsk, hS]⟩
            rw [hnps] at this
            exact Bool.noConfusion this
      · rintro ⟨hsf, hall⟩
        refine ⟨hsf, ?_⟩
        rw [← Bool.not_eq_true]
        intro hpst
        obtain ⟨m, hedge, hstale⟩ := (hps).mp hpst
        exact hall m (ReachIdx.single hedge) hstale
    · -- UP_TO_DATE iff fresh and no direct producer STALE
      rw [hstep0]
      have hcond : (if outputsFresh fs
            (j.input_files.filterMap (mtimeOf fs) ++ upTimesOf fs D j) j
            && !producerStale D j
          then Status.UP_TO_DATE else Status.STALE) = Status.UP_TO_DATE ↔
          (outputsFresh fs
              (j.input_files.filterMap (mtimeOf fs) ++ upTimesOf fs D j) j = true ∧
            producerStale D j = false) := by
        split
        · rename_i hcc
          rw [Bool.and_eq_true, Bool.not_eq_true'] at hcc
          simp [hcc]
        · rename_i hcc
          rw [Bool.and_eq_true, Bool.not_eq_true'] at hcc
          constructor
          · intro h; exact absurd h (by simp)
          · intro h; exact absurd h hcc
      rw [hcond, hof]
      constructor
      · rintro ⟨hsf, hnps⟩
        refine ⟨hsf, ?_⟩
        intro m hedge hstale
        have : producerStale D j = true := (hps).mpr ⟨m, hedge, hstale⟩
        rw [hnps] at this
        exact Bool.noConfusion this
      · rintro ⟨hsf, hall⟩
        refine ⟨hsf, ?_⟩
        rw [← Bool.not_eq_true]
        intro hpst
        obtain ⟨m, hedge, hstale⟩ := (hps).mp hpst
        exact hall m hedge hstale

/-- C1: for a topologically ordered run, a job's status is UP_TO_DATE iff
every declared output exists on disk with a modification time not older
than every input file's modification time and than the freshest output
timestamp of every (transitive) upstream producer, and no producer is
STALE; the status is otherwise STALE (the evaluator is two-valued), and a
job declaring no outputs is always STALE. -/
theorem c1_up_to_date_iff (fs : FS) (js : List Job) (htopo : TopoSorted js)
    (n : Nat) (j : Job) (hj : js[n]? = some j) :
    (statusAt fs js n = some Status.UP_TO_DATE ↔
        SelfFresh fs js n ∧
          ∀ m, ReachIdx js m n → statusAt fs js m ≠ some Status.STALE) ∧
      (statusAt fs js n = some Status.UP_TO_DATE ∨
        statusAt fs js n = some Status.STALE) ∧
      (j.output_files = [] → statusAt fs js n = some Status.STALE) := by
  obtain ⟨s, ups, hel, -, htv, hiffR, -⟩ := staleness_invariant fs js htopo n j hj
  have hst : statusAt fs js n = some s := statusAt_of_getElem hel
  refine ⟨?_, ?_, ?_⟩
  · rw [hst]
    constructor
    · intro h
      exact hiffR.mp (Option.some.inj h)
    · intro h
      rw [hiffR.mpr h]
  · rcases htv with h | h
    · left; rw [hst, h]
    · right; rw [hst, h]
  · intro hout
    rcases htv with hU | hS
    · exfalso
      obtain ⟨hsf, -⟩ := hiffR.mp hU
      obtain ⟨j', hj', hne, -⟩ := hsf
      rw [hj] at hj'
      have hjj : j = j' := Option.some.inj hj'
      exact hne (hjj ▸ hout)
    · rw [hst, hS]

/-- The producer job of the witness scenarios: outputs `a`. -/
def jobJ1 : Job := { name := "J1", output_files := ["a"] }

/-- The consumer job of the witness scenarios: reads `a`, outputs `b`. -/
def jobJ2 : Job := { name := "J2", input_files := ["a"], output_files := ["b"] }

/-- Witness filesystem for C1: both files on disk, output newer than
input. -/
def fsFresh : FS := [("a", 5), ("b", 9)]

/-- Witness for C1: in the two-job chain with both files on disk (output
newer than input) the characterization applies to the consumer. -/
theorem c1_up_to_date_iff_witness :
    TopoSorted [jobJ1, jobJ2] ∧
      ([jobJ1, jobJ2] : List Job)[1]? = some jobJ2 ∧
      ((statusAt fsFresh [jobJ1, jobJ2] 1 = some Status.UP_TO_DATE ↔
          SelfFresh fsFresh [jobJ1, jobJ2] 1 ∧
            ∀ m, ReachIdx [jobJ1, jobJ2] m 1 →
              statusAt fsFresh [jobJ1, jobJ2] m ≠ some Status.STALE) ∧
        (statusAt fsFresh [jobJ1, jobJ2] 1 = some Status.UP_TO_DATE ∨
          statusAt fsFresh [jobJ1, jobJ2] 1 = some Status.STALE) ∧
        (jobJ2.output_files = [] →
          statusAt fsFresh [jobJ1, jobJ2] 1 = some Status.STALE)) :=
  ⟨by decide, by decide,
    c1_up_to_date_iff fsFresh [jobJ1, jobJ2] (by decide) 1 jobJ2 (by decide)⟩

/-- C2: staleness cascades along the producer relation — if any (direct or
transitive) producer of a job is STALE the job is STALE, regardless of its
own files — and a job's staleness in the single topological pass is exactly
its own file-level staleness OR the staleness of some direct producer. -/
theorem c2_stale_cascade (fs : FS) (js : List Job) (htopo : TopoSorted js) :
    (∀ m n, ReachIdx js m n → statusAt fs js m = some Status.STALE →
        statusAt fs js n = some Status.STALE) ∧
      (∀ n j, js[n]? = some j →
        (statusAt fs js n = some Status.STALE ↔
          ¬ SelfFresh fs js n ∨
            ∃ m, edgeB js m n = true ∧ statusAt fs js m = some Status.STALE)) := by
  constructor
  · intro m n hreach hstale
    have hn : n < js.length := reach_dst_lt hreach
    have hj : js[n]? = some js[n] := List.getElem?_eq_getElem hn
    obtain ⟨s, ups, hel, -, htv, hiffR, -⟩ :=
      staleness_invariant fs js htopo n js[n] hj
    have hst : statusAt fs js n = some s := statusAt_of_getElem hel
    rcases htv with hU | hS
    · exact absurd hstale ((hiffR.mp hU).2 m hreach)
    · rw [hst, hS]
  · intro n j hj
    obtain ⟨s, ups, hel, -, htv, -, hiffE⟩ :=
      staleness_invariant fs js htopo n j hj
    have hst : statusAt fs js n = some s := statusAt_of_getElem hel
    rw [hst]
    constructor
    · intro h
      have hsS : s = Status.STALE := Option.some.inj h
      rcases Classical.em (SelfFresh fs js n) with hsf | hsf
      · rcases Classical.em (∃ m, edgeB js m n = true ∧
            statusAt fs js m = some Status.STALE) with hex | hex
        · exact Or.inr hex
        · exfalso
          have : s = Status.UP_TO_DATE :=
            hiffE.mpr ⟨hsf, fun m he hstm => hex ⟨m, he, hstm⟩⟩
          rw [hsS] at this
          exact Status.noConfusion this
      · exact Or.inl hsf
    · intro h
      rcases htv with hU | hS
      · exfalso
        obtain ⟨hsf, hall⟩ := hiffE.mp hU
        rcases h with hnsf | ⟨m, he, hstale⟩
        · exact hnsf hsf
        · exact hall m he hstale
      · rw [hS]

/-- Witness filesystem for C2: the producer's output `a` is missing (so J1
is STALE) while the consumer's own output `b` exists. -/
def fsStale : FS := [("b", 9)]

/-- Witness for C2: J1's output is missing so J1 is STALE, and J2 — whose
own file `b` is individually fresh — is forced STALE by the cascade. -/
theorem c2_stale_cascade_witness :
    TopoSorted [jobJ1, jobJ2] ∧
      ReachIdx [jobJ1, jobJ2] 0 1 ∧
      statusAt fsStale [jobJ1, jobJ2] 0 = some Status.STALE ∧
      statusAt fsStale [jobJ1, jobJ2] 1 = some Status.STALE :=
  ⟨by decide, ReachIdx.single (by decide), by decide,
    (c2_stale_cascade fsStale [jobJ1, jobJ2] (by decide)).1 0 1
      (ReachIdx.single (by decide)) (by decide)⟩

/-! ### The Scheduler/Executor (claim C3) -/

/-- The overall run outcome of the specification. -/
inductive Outcome
  | ALL_SUCCEEDED
  | PARTIAL_FAILURE
  | ABORTED
  deriving Repr, DecidableEq

/-- Modelled from the spec: one step of the Scheduler/Executor (spec §4.5,
`core/pipeline.py` absent from the given source tree): a job whose
already-processed producer is FAILED or BLOCKED transitions to BLOCKED
without its action being invoked; otherwise its action runs and the job
becomes SUCCEEDED or FAILED.  The boolean records whether the action was
invoked. -/
def execStep (act : Job → Bool) (done : List (Job × Status × Bool)) (j : Job) :
    Status × Bool :=
  if done.any (fun e => producesFor e.1 j &&
      (decide (e.2.1 = Status.FAILED) || decide (e.2.1 = Status.BLOCKED))) then
    (Status.BLOCKED, false)
  else if act j then
    (Status.SUCCEEDED, true)
  else
    (Status.FAILED, true)

/-- The Scheduler/Executor pass over the topologically ordered job list,
with the action outcomes given by the oracle `act`. -/
def execute (act : Job → Bool) (js : List Job) : List (Job × Status × Bool) :=
  scanJobs (execStep act) [] js

/-- The execution status of the job at position `n`. -/
def execStatusAt (act : Job → Bool) (js : List Job) (n : Nat) : Option Status :=
  ((execute act js)[n]?).map (fun e => e.2.1)

/-- Whether the action of the job at position `n` was invoked. -/
def invokedAt (act : Job → Bool) (js : List Job) (n : Nat) : Option Bool :=
  ((execute act js)[n]?).map (fun e => e.2.2)

/-- The final run outcome: ALL_SUCCEEDED when every job succeeded, and a
partial-failure outcome otherwise (execution never aborts the run). -/
def runOutcome (rs : List (Job × Status × Bool)) : Outcome :=
  if rs.all (fun e => decide (e.2.1 = Status.SUCCEEDED)) then
    Outcome.ALL_SUCCEEDED
  else
    Outcome.PARTIAL_FAILURE

theorem mem_scan_take {α : Type} (f : List (Job × α) → Job → α)
    (js : List Job) (n : Nat) (hn : n < js.length) (e : Job × α) :
    e ∈ scanJobs f [] (js.take n) ↔
      ∃ m, m < n ∧ (scanJobs f [] js)[m]? = some e := by
  have hlen : (scanJobs f [] (js.take n)).length = n := by
    rw [scanJobs_length]
    simp
    omega
  rw [List.mem_iff_getElem?]
  constructor
  · rintro ⟨m, hm⟩
    have hmn : m < n := by
      by_contra hc
      rw [List.getElem?_eq_none (by omega)] at hm
      exact Option.noConfusion hm
    refine ⟨m, hmn, ?_⟩
    rw [← scanJobs_take_getElem f js n m hmn js[m]
      (List.getElem?_eq_getElem (by omega))]
    exact hm
  · rintro ⟨m, hmn, hm⟩
    refine ⟨m, ?_⟩
    rw [scanJobs_take_getElem f js n m hmn js[m]
      (List.getElem?_eq_getElem (by omega))]
    exact hm

theorem execStatusAt_of_getElem {act : Job → Bool} {js : List Job} {m : Nat}
    {a : Job} {sm : Status} {bm : Bool}
    (h : (execute act js)[m]? = some (a, sm, bm)) :
    execStatusAt act js m = some sm := by
  unfold execStatusAt
  rw [h]
  rfl

/-- Execution with exactly one failing action (at position `k`) assigns
FAILED to `k` (action invoked), BLOCKED without invocation to every
transitive consumer of `k`, and SUCCEEDED with invocation to every other
job. -/
theorem exec_invariant (act : Job → Bool) (js : List Job) (htopo : TopoSorted js)
    (k : Nat)
    (hact : ∀ (m : Nat) (hm : m < js.length),
      (act (js.get ⟨m, hm⟩) = false ↔ m = k)) :
    ∀ n j, js[n]? = some j →
      ∃ s b, (execute act js)[n]? = some (j, s, b) ∧
        (n = k → s = Status.FAILED ∧ b = true) ∧
        (n ≠ k → ReachIdx js k n → s = Status.BLOCKED ∧ b = false) ∧
        (n ≠ k → ¬ ReachIdx js k n → s = Status.SUCCEEDED ∧ b = true) := by
  intro n
  induction n using Nat.strong_induction_on with
  | _ n IH =>
    intro j hj
    have hn : n < js.length := by
      by_contra h
      rw [List.getElem?_eq_none (by omega)] at hj
      exact Option.noConfusion hj
    set D := execute act (js.take n) with hD
    have hget : (execute act js)[n]? = some (j, execStep act D j) :=
      scanJobs_getElem (execStep act) js n j hj
    have hmemD : ∀ e, e ∈ D ↔ ∃ m, m < n ∧ (execute act js)[m]? = some e :=
      mem_scan_take (execStep act) js n hn
    -- the blocked-check fires exactly when the failed job reaches n
    have hbad : (D.any (fun e => producesFor e.1 j &&
        (decide (e.2.1 = Status.FAILED) || decide (e.2.1 = Status.BLOCKED)))) = true ↔
        ReachIdx js k n := by
      rw [List.any_eq_true]
      constructor
      · rintro ⟨e, heD, hcond⟩
        rw [Bool.and_eq_true, Bool.or_eq_true, decide_eq_true_eq,
          decide_eq_true_eq] at hcond
        obtain ⟨hpf, hfb⟩ := hcond
        rw [hmemD] at heD
        obtain ⟨m, hmn, hfull⟩ := heD
        have hjm : js[m]? = some js[m] := List.getElem?_eq_getElem (by omega)
        obtain ⟨sm, bm, hmel, hF, hB, hS⟩ := IH m hmn js[m] hjm
        have he_eq : e = (js[m], sm, bm) := by
          rw [hfull] at hmel
          exact Option.some.inj hmel
        subst he_eq
        have hedge : edgeB js m n = true := by
          rw [edgeB_eq hjm hj]
          exact hpf
        rcases Classical.em (m = k) with hmk | hmk
        · subst hmk
          exact ReachIdx.single hedge
        · rcases Classical.em (ReachIdx js k m) with hr | hr
          · exact ReachIdx.tail hr hedge
          · have := hS hmk hr
            rcases hfb with hf | hb
            · rw [this.1] at hf
              exact absurd hf (by simp)
            · rw [this.1] at hb
              exact absurd hb (by simp)
      · intro hreach
        rcases reach_cases hreach with hedge | ⟨m, hrm, hedgem⟩
        · have hkn : k < n := topo_edge_lt htopo hedge
          have hjk : js[k]? = some js[k] := List.getElem?_eq_getElem (by omega)
          obtain ⟨sk, bk, hkel, hF, -, -⟩ := IH k hkn js[k] hjk
          obtain ⟨hsk, -⟩ := hF rfl
          refine ⟨(js[k], sk, bk), (hmemD _).mpr ⟨k, hkn, hkel⟩, ?_⟩
          simp only [Bool.and_eq_true, Bool.or_eq_true, decide_eq_true_eq]
          refine ⟨?_, Or.inl hsk⟩
          show producesFor js[k] j = true
          rw [← edgeB_eq hjk hj]
          exact hedge
        · have hmn : m < n := topo_edge_lt htopo hedgem
          have hmk : m ≠ k := by
            have := topo_reach_lt htopo hrm
            omega
          have hjm : js[m]? = some js[m] := List.getElem?_eq_getElem (by omega)
          obtain ⟨sm, bm, hmel, -, hB, -⟩ := IH m hmn js[m] hjm
          obtain ⟨hsm, -⟩ := hB hmk hrm
          refine ⟨(js[m], sm, bm), (hmemD _).mpr ⟨m, hmn, hmel⟩, ?_⟩
          simp only [Bool.and_eq_true, Bool.or_eq_true, decide_eq_true_eq]
          refine ⟨?_, Or.inr hsm⟩
          show producesFor js[m] j = true
          rw [← edgeB_eq hjm hj]
          exact hedgem
    have hjget : js.get ⟨n, hn⟩ = j := by
      have := List.getElem?_eq_getElem hn
      rw [hj] at this
      exact (Option.some.inj this).symm
    refine ⟨(execStep act D j).1, (execStep act D j).2, by rw [hget], ?_, ?_, ?_⟩
    · intro hnk
      subst hnk
      have hnr : ¬ ReachIdx js n n := by
        intro hr
        have := topo_reach_lt htopo hr
        omega
      have hb : (D.any (fun e => producesFor e.1 j &&
          (decide (e.2.1 = Status.FAILED) || decide (e.2.1 = Status.BLOCKED)))) = false := by
        rw [← Bool.not_eq_true]
        intro hc
        exact hnr (hbad.mp hc)
      have hactn : act j = false := by
        rw [← hjget]
        exact (hact n hn).mpr rfl
      unfold execStep
      rw [hb, hactn]
      simp
    · intro hnk hreach
      have hb : (D.any (fun e => producesFor e.1 j &&
          (decide (e.2.1 = Status.FAILED) || decide (e.2.1 = Status.BLOCKED)))) = true :=
        hbad.mpr hreach
      unfold execStep
      rw [hb]
      simp
    · intro hnk hnreach
      have hb : (D.any (fun e => producesFor e.1 j &&
          (decide (e.2.1 = Status.FAILED) || decide (e.2.1 = Status.BLOCKED)))) = false := by
        rw [← Bool.not_eq_true]
        intro hc
        exact hnreach (hbad.mp hc)
      have hactn : act j = true := by
        rcases hx : act j with - | -
        · exfalso
          apply hnk
          rw [← hjget] at hx
          exact (hact n hn).mp hx
        · rfl
      unfold execStep
      rw [hb, hactn]
      simp

/-- C3: when exactly one job's action fails, that job becomes FAILED (its
action was invoked), every transitive downstream consumer becomes BLOCKED
without its action ever being invoked, every job with no dependency path
from the failed job runs to completion (SUCCEEDED, action invoked), and the
run ends with a partial-failure outcome rather than aborting. -/
theorem c3_failure_propagation (act : Job → Bool) (js : List Job)
    (htopo : TopoSorted js) (k : Nat) (hk : k < js.length)
    (hact : ∀ (m : Nat) (hm : m < js.length),
      (act (js.get ⟨m, hm⟩) = false ↔ m = k)) :
    (execStatusAt act js k = some Status.FAILED ∧
        invokedAt act js k = some true) ∧
      (∀ n, ReachIdx js k n →
        execStatusAt act js n = some Status.BLOCKED ∧
          invokedAt act js n = some false) ∧
      (∀ n, n < js.length → n ≠ k → ¬ ReachIdx js k n →
        execStatusAt act js n = some Status.SUCCEEDED ∧
          invokedAt act js n = some true) ∧
      runOutcome (execute act js) = Outcome.PARTIAL_FAILURE := by
  have hjk : js[k]? = some js[k] := List.getElem?_eq_getElem hk
  obtain ⟨sk, bk, hkel, hF, -, -⟩ := exec_invariant act js htopo k hact k js[k] hjk
  obtain ⟨hskF, hbk⟩ := hF rfl
  subst hskF
  subst hbk
  refine ⟨?_, ?_, ?_, ?_⟩
  · constructor
    · exact execStatusAt_of_getElem hkel
    · unfold invokedAt
      rw [hkel]
      rfl
  · intro n hreach
    have hn : n < js.length := reach_dst_lt hreach
    have hnk : n ≠ k := by
      have := topo_reach_lt htopo hreach
      omega
    have hjn : js[n]? = some js[n] := List.getElem?_eq_getElem hn
    obtain ⟨sn, bn, hnel, -, hB, -⟩ := exec_invariant act js htopo k hact n js[n] hjn
    obtain ⟨hsn, hbn⟩ := hB hnk hreach
    subst hsn
    subst hbn
    constructor
    · exact execStatusAt_of_getElem hnel
    · unfold invokedAt
      rw [hnel]
      rfl
  · intro n hn hnk hnreach
    have hjn : js[n]? = some js[n] := List.getElem?_eq_getElem hn
    obtain ⟨sn, bn, hnel, -, -, hS⟩ := exec_invariant act js htopo k hact n js[n] hjn
    obtain ⟨hsn, hbn⟩ := hS hnk hnreach
    subst hsn
    subst hbn
    constructor
    · exact execStatusAt_of_getElem hnel
    · unfold invokedAt
      rw [hnel]
      rfl
  · have hmem : (js[k], Status.FAILED, true) ∈ execute act js :=
      List.getElem?_mem hkel
    unfold runOutcome
    split
    · rename_i hcc
      exfalso
      have := List.all_eq_true.mp hcc _ hmem
      simp at this
    · rfl

/-- The independent third job of the C3 witness scenario: no shared paths
with the J1→J2 chain. -/
def jobJ3 : Job := { name := "J3", output_files := ["c"] }

/-- The C3 witness action oracle: the action fails exactly for the job
named `"J1"`. -/
def failJ1Act : Job → Bool := fun j => !(j.name == "J1")

/-- Witness for C3: J1 (position 0) fails, its consumer J2 is BLOCKED
without running, the independent J3 runs to SUCCEEDED, and the run outcome
is PARTIAL_FAILURE. -/
theorem c3_failure_propagation_witness :
    TopoSorted [jobJ1, jobJ2, jobJ3] ∧
      0 < ([jobJ1, jobJ2, jobJ3] : List Job).length ∧
      (∀ (m : Nat) (hm : m < ([jobJ1, jobJ2, jobJ3] : List Job).length),
        (failJ1Act (([jobJ1, jobJ2, jobJ3] : List Job).get ⟨m, hm⟩) = false ↔ m = 0)) ∧
      ((execStatusAt failJ1Act [jobJ1, jobJ2, jobJ3] 0 = some Status.FAILED ∧
          invokedAt failJ1Act [jobJ1, jobJ2, jobJ3] 0 = some true) ∧
        (∀ n, ReachIdx [jobJ1, jobJ2, jobJ3] 0 n →
          execStatusAt failJ1Act [jobJ1, jobJ2, jobJ3] n = some Status.BLOCKED ∧
            invokedAt failJ1Act [jobJ1, jobJ2, jobJ3] n = some false) ∧
        (∀ n, n < ([jobJ1, jobJ2, jobJ3] : List Job).length → n ≠ 0 →
          ¬ ReachIdx [jobJ1, jobJ2, jobJ3] 0 n →
          execStatusAt failJ1Act [jobJ1, jobJ2, jobJ3] n = some Status.SUCCEEDED ∧
            invokedAt failJ1Act [jobJ1, jobJ2, jobJ3] n = some true) ∧
        runOutcome (execute failJ1Act [jobJ1, jobJ2, jobJ3]) =
          Outcome.PARTIAL_FAILURE) :=
  ⟨by decide, by decide, by decide,
    c3_failure_propagation failJ1Act [jobJ1, jobJ2, jobJ3] (by decide) 0
      (by decide) (by decide)⟩

end Mugqic
